import Mathlib

/-!
Shallow embedding of the FlashX algorithm-layer code:
`apps/scan-statistics/topK_scan_graph.cpp`, `flash-graph/libgraph-algs/wcc.cpp`
and `flash-graph/overlap/overlap.cpp`.  Machine integers (`size_t`,
`vertex_id_t`) are modelled as `Nat`; the values involved (degrees, scan
counts, component labels) are small, so no overflow wrapping is modelled.
Stateful C++ objects become Lean structures with explicit state passing;
the spinlock-guarded critical sections become plain sequential updates,
so every statement about the concurrent objects is a statement about a
serialization of their operations.
-/

/-! ### global_max (topK_scan_graph.cpp lines 64-96)

`update` is embedded exactly as written: the unlocked early-return
`if (new_v <= value) return false;` followed by the locked re-check
`if (new_v > value)`.  A sequential execution is a fold of this function
over the list of submitted candidates. -/

/-- One call of `global_max::update`: returns the new stored value and the
boolean result of the call. -/
def global_max_update (value new_v : Nat) : Nat × Bool :=
  if new_v ≤ value then (value, false)
  else if value < new_v then (new_v, true)
  else (value, false)

/-- The stored value after a serialized sequence of `update` calls,
starting from `init` (the constructor argument; the default constructor
uses 0). -/
def global_max_run (init : Nat) (cs : List Nat) : Nat :=
  cs.foldl (fun s c => (global_max_update s c).1) init

/-- The sequence of stored values visible during a serialized run:
the initial value followed by the value after each `update`. -/
def global_max_states (init : Nat) (cs : List Nat) : List Nat :=
  List.scanl (fun s c => (global_max_update s c).1) init cs

theorem global_max_update_eq (s c : Nat) :
    global_max_update s c = (max s c, decide (s < c)) := by
  unfold global_max_update
  rcases Nat.lt_or_ge s c with h | h
  · rw [if_neg (by omega), if_pos h]
    simp [Nat.max_eq_right (Nat.le_of_lt h), h]
  · rw [if_pos h]
    simp [Nat.max_eq_left h]
    omega


theorem global_max_run_eq_foldl_max (init : Nat) (cs : List Nat) :
    global_max_run init cs = cs.foldl max init := by
  induction cs generalizing init with
  | nil => rfl
  | cons c cs ih =>
      have h1 : global_max_run init (c :: cs) = global_max_run (max init c) cs := by
        simp [global_max_run, global_max_update_eq]
      rw [h1, List.foldl_cons]
      exact ih _

theorem foldl_max_le_iff (init x : Nat) (cs : List Nat) :
    cs.foldl max init < x ↔ init < x ∧ ∀ c ∈ cs, c < x := by
  induction cs generalizing init with
  | nil => simp
  | cons c cs ih =>
      simp only [List.foldl_cons, ih, List.mem_cons]
      constructor
      · rintro ⟨h1, h2⟩
        refine ⟨by omega, ?_⟩
        rintro d (rfl | hd)
        · omega
        · exact h2 d hd
      · rintro ⟨h1, h2⟩
        refine ⟨by have := h2 c (Or.inl rfl); omega, ?_⟩
        exact fun d hd => h2 d (Or.inr hd)

theorem le_foldl_max (init : Nat) (cs : List Nat) : init ≤ cs.foldl max init := by
  induction cs generalizing init with
  | nil => simp
  | cons c cs ih => exact le_trans (Nat.le_max_left init c) (ih (max init c))

theorem mem_states_le_final (init : Nat) (cs : List Nat) :
    ∀ w ∈ global_max_states init cs, w ≤ cs.foldl max init := by
  induction cs generalizing init with
  | nil =>
      intro w hw
      simp only [global_max_states, List.scanl, List.mem_singleton] at hw
      simp [hw]
  | cons c cs ih =>
      intro w hw
      simp only [global_max_states, List.scanl, List.mem_cons] at hw
      rcases hw with rfl | hw
      · exact le_foldl_max w (c :: cs)
      · simpa [global_max_update_eq] using ih (max init c) w (by
          simpa [global_max_states, global_max_update_eq] using hw)

theorem final_mem_states (init : Nat) (cs : List Nat) :
    cs.foldl max init ∈ global_max_states init cs := by
  induction cs generalizing init with
  | nil => simp [global_max_states, List.scanl]
  | cons c cs ih =>
      simp only [global_max_states, List.scanl, List.mem_cons, List.foldl_cons]
      right
      simpa [global_max_states, global_max_update_eq] using ih (max init c)

theorem states_all_below_iff (init x : Nat) (cs : List Nat) :
    (∀ w ∈ global_max_states init cs, w < x) ↔ cs.foldl max init < x := by
  constructor
  · intro h
    exact h _ (final_mem_states init cs)
  · intro h w hw
    exact lt_of_le_of_lt (mem_states_le_final init cs w hw) h

/-- C2: `global_max::update(candidate)` installs `candidate` iff it is
strictly greater than the current value, returns true exactly when the
install happened; over any serialized sequence of updates the final value
is the maximum of the initial value and all candidates, and an update
returns true exactly when its candidate is strictly greater than every
previously visible (installed) value. -/
theorem global_max_update_correct (init : Nat) (cs : List Nat) :
    (∀ s c, (global_max_update s c).1 = max s c ∧
      ((global_max_update s c).2 = true ↔ s < c)) ∧
    global_max_run init cs = cs.foldl max init ∧
    (∀ i, (h : i < cs.length) →
      ((global_max_update (global_max_run init (cs.take i)) (cs.get ⟨i, h⟩)).2 = true ↔
        ∀ w ∈ global_max_states init (cs.take i), w < cs.get ⟨i, h⟩)) := by
  refine ⟨?_, global_max_run_eq_foldl_max init cs, ?_⟩
  · intro s c
    rw [global_max_update_eq]
    simp
  · intro i h
    rw [global_max_update_eq]
    simp only [decide_eq_true_eq]
    rw [global_max_run_eq_foldl_max]
    exact (states_all_below_iff init (cs.get ⟨i, h⟩) (cs.take i)).symm

/-- Witness for C2 at a concrete run: initial value 0, candidates
[3, 2, 5], third submission. -/
theorem global_max_update_correct_witness :
    (global_max_update (global_max_run 0 ([3, 2, 5].take 2))
        ([3, 2, 5].get ⟨2, by decide⟩)).2 = true ↔
      ∀ w ∈ global_max_states 0 ([3, 2, 5].take 2),
        w < [3, 2, 5].get ⟨2, by decide⟩ :=
  (global_max_update_correct 0 [3, 2, 5]).2.2 2 (by decide)

/-! ### vertex_size_scheduler (topK_scan_graph.cpp lines 36-62)

`schedule` copies the vertices of the given ids, sorts them with
`std::sort` under the comparator `v1->get_num_edges() > v2->get_num_edges()`
and writes the ids back in that order.  `std::sort` is modelled by
`List.insertionSort` under the reflexive closure of that comparator
(`std::sort` guarantees exactly: the result is a permutation that is
sorted with respect to the strict weak order). -/

/-- Embeds `vertex_size_scheduler::schedule`: reorder ids by non-increasing
degree, where `deg` gives each vertex's `get_num_edges()`. -/
def vertex_size_scheduler_schedule (deg : Nat → Nat) (ids : List Nat) : List Nat :=
  List.insertionSort (fun a b => deg b ≤ deg a) ids

/-- C7: the largest-degree-first scheduling policy returns a permutation
of the input ids ordered by non-increasing edge count. -/
theorem vertex_size_scheduler_schedule_correct (deg : Nat → Nat) (ids : List Nat) :
    (vertex_size_scheduler_schedule deg ids).Perm ids ∧
    (vertex_size_scheduler_schedule deg ids).Sorted (fun a b => deg b ≤ deg a) := by
  constructor
  · exact List.perm_insertionSort _ ids
  · haveI : IsTotal Nat (fun a b => deg b ≤ deg a) :=
      ⟨fun a b => Nat.le_total (deg b) (deg a)⟩
    haveI : IsTrans Nat (fun a b => deg b ≤ deg a) :=
      ⟨fun _ _ _ hab hbc => le_trans hbc hab⟩
    exact List.sorted_insertionSort _ ids

/-! ### scan_collection (topK_scan_graph.cpp lines 98-149)

`known_scans` holds pairs `(vertex id, scan)` with a `sorted` flag.
`get(idx)` sorts the vector descending by scan when the flag is clear,
sets the flag, and indexes the vector with **no bounds check** (modelled
with `getD`, with the in-bounds precondition stated separately as C9);
`add` appends and clears the flag.  `std::sort` under the comparator
`s1.second > s2.second` is modelled by `insertionSort` under its
reflexive closure, as for the scheduler above. -/

abbrev vertex_scan := Nat × Nat

instance : IsTotal vertex_scan (fun a b => b.2 ≤ a.2) :=
  ⟨fun a b => Nat.le_total b.2 a.2⟩

instance : IsTrans vertex_scan (fun a b => b.2 ≤ a.2) :=
  ⟨fun _ _ _ h1 h2 => le_trans h2 h1⟩

structure scan_collection where
  sorted : Bool
  scans : List vertex_scan

/-- The constructor: empty vector, `sorted = false`. -/
def scan_collection_empty : scan_collection := ⟨false, []⟩

/-- The in-place sort performed at the top of `scan_collection::get`
when the `sorted` flag is clear. -/
def scan_collection_sortState (s : scan_collection) : scan_collection :=
  if s.sorted then s
  else ⟨true, List.insertionSort (fun a b => b.2 ≤ a.2) s.scans⟩

/-- Embeds `scan_collection::get(idx)`: sort lazily, then read `scans[idx]`.
Returns the read pair and the post-call state. -/
def scan_collection_get (s : scan_collection) (idx : Nat) :
    vertex_scan × scan_collection :=
  ((scan_collection_sortState s).scans.getD idx (0, 0), scan_collection_sortState s)

/-- Embeds `scan_collection::add(id, scan)`: clear the flag, push back. -/
def scan_collection_add (s : scan_collection) (id scan : Nat) : scan_collection :=
  ⟨false, s.scans ++ [(id, scan)]⟩

/-- One operation applied to the collection. -/
inductive ScanOp where
  | add (id scan : Nat)
  | get (idx : Nat)

def scan_collection_apply (s : scan_collection) (op : ScanOp) : scan_collection :=
  match op with
  | .add id scan => scan_collection_add s id scan
  | .get idx => (scan_collection_get s idx).2

/-- The collection state after a serialized sequence of operations. -/
def scan_collection_run (ops : List ScanOp) : scan_collection :=
  ops.foldl scan_collection_apply scan_collection_empty

/-- The multiset (in submission order) of entries added by a sequence. -/
def scan_entries (ops : List ScanOp) : List vertex_scan :=
  ops.foldl (fun l op => match op with
    | .add id scan => l ++ [(id, scan)]
    | .get _ => l) []

/-- Data invariant of the collection: the vector is a permutation of the
added entries, and when the flag is set the vector is descending. -/
def scan_collection_inv (s : scan_collection) (es : List vertex_scan) : Prop :=
  s.scans.Perm es ∧ (s.sorted = true → s.scans.Sorted (fun a b => b.2 ≤ a.2))

theorem scan_collection_apply_inv (s : scan_collection) (es : List vertex_scan)
    (op : ScanOp) (h : scan_collection_inv s es) :
    scan_collection_inv (scan_collection_apply s op)
      (match op with | .add id scan => es ++ [(id, scan)] | .get _ => es) := by
  obtain ⟨hperm, hsort⟩ := h
  cases op with
  | add id scan =>
      exact ⟨hperm.append_right [(id, scan)],
        by simp [scan_collection_apply, scan_collection_add]⟩
  | get idx =>
      simp only [scan_collection_apply, scan_collection_get, scan_collection_sortState]
      by_cases hs : s.sorted
      · simpa [hs] using ⟨hperm, hsort⟩
      · simp only [hs, if_neg Bool.false_ne_true]
        refine ⟨(List.perm_insertionSort _ _).trans hperm, fun _ => ?_⟩
        exact List.sorted_insertionSort _ _

theorem scan_collection_run_inv_aux (ops : List ScanOp) :
    ∀ (s : scan_collection) (es : List vertex_scan), scan_collection_inv s es →
      scan_collection_inv (ops.foldl scan_collection_apply s)
        (ops.foldl (fun l op => match op with
          | ScanOp.add id scan => l ++ [(id, scan)]
          | ScanOp.get _ => l) es) := by
  induction ops with
  | nil => intro s es h; exact h
  | cons op ops ih =>
      intro s es h
      simp only [List.foldl_cons]
      exact ih _ _ (scan_collection_apply_inv s es op h)

theorem scan_collection_run_inv (ops : List ScanOp) :
    scan_collection_inv (scan_collection_run ops) (scan_entries ops) :=
  scan_collection_run_inv_aux ops scan_collection_empty []
    ⟨List.Perm.refl _, by simp [scan_collection_empty]⟩

/-- C3: after any serialized sequence of operations, `get(k)` for
`k` below the number of added entries returns the k-th element of a
descending-by-score ordering of all added entries (`std::sort` is not
stable, so the ordering is some fixed descending permutation); moreover
`add` clears the `sorted` flag and `get` on a sorted collection reuses
the cached order without re-sorting. -/
theorem scan_collection_get_correct (ops : List ScanOp) (k : Nat)
    (hk : k < (scan_entries ops).length) :
    (∃ l : List vertex_scan, l.Perm (scan_entries ops) ∧
      l.Sorted (fun a b => b.2 ≤ a.2) ∧ k < l.length ∧
      (scan_collection_get (scan_collection_run ops) k).1 = l.getD k (0, 0)) ∧
    (∀ s id scan, (scan_collection_add s id scan).sorted = false) ∧
    (∀ s : scan_collection, s.sorted = true → scan_collection_sortState s = s) := by
  refine ⟨?_, fun s id scan => rfl, fun s hs => by simp [scan_collection_sortState, hs]⟩
  obtain ⟨hperm, hsort⟩ := scan_collection_run_inv ops
  refine ⟨(scan_collection_sortState (scan_collection_run ops)).scans, ?_, ?_, ?_, rfl⟩
  · simp only [scan_collection_sortState]
    split
    · exact hperm
    · exact (List.perm_insertionSort _ _).trans hperm
  · simp only [scan_collection_sortState]
    split
    · next hs => exact hsort hs
    · exact List.sorted_insertionSort _ _
  · have hlen : (scan_collection_sortState (scan_collection_run ops)).scans.length
        = (scan_entries ops).length := by
      simp only [scan_collection_sortState]
      split
      · exact hperm.length_eq
      · exact ((List.perm_insertionSort _ _).trans hperm).length_eq
    omega

/-- Witness for C3: add scans 5, 9, read, add 7; query index 1. -/
theorem scan_collection_get_correct_witness :
    (∃ l : List vertex_scan,
      l.Perm (scan_entries [ScanOp.add 1 5, ScanOp.add 2 9, ScanOp.get 0, ScanOp.add 3 7]) ∧
      l.Sorted (fun a b => b.2 ≤ a.2) ∧ 1 < l.length ∧
      (scan_collection_get
        (scan_collection_run [ScanOp.add 1 5, ScanOp.add 2 9, ScanOp.get 0, ScanOp.add 3 7])
        1).1 = l.getD 1 (0, 0)) ∧
    (∀ s id scan, (scan_collection_add s id scan).sorted = false) ∧
    (∀ s : scan_collection, s.sorted = true → scan_collection_sortState s = s) :=
  scan_collection_get_correct [ScanOp.add 1 5, ScanOp.add 2 9, ScanOp.get 0, ScanOp.add 3 7]
    1 (by decide)

/-- C9: querying the k-th known scan is safe exactly under the driver's
precondition: the driver loops until `get_size() >= topK` before calling
`get(topK - 1)`, and under `1 ≤ topK ≤ size` the index `topK - 1` is in
bounds for the vector actually indexed by `get` (sorting preserves
length). -/
theorem scan_collection_get_inbounds (s : scan_collection) (topK : Nat)
    (h1 : 1 ≤ topK) (h2 : topK ≤ s.scans.length) :
    topK - 1 < (scan_collection_sortState s).scans.length := by
  have hlen : (scan_collection_sortState s).scans.length = s.scans.length := by
    simp only [scan_collection_sortState]
    split
    · rfl
    · exact (List.perm_insertionSort _ _).length_eq
  omega

/-- Witness for C9: two known scans, topK = 2. -/
theorem scan_collection_get_inbounds_witness :
    2 - 1 < (scan_collection_sortState ⟨false, [(1, 5), (2, 3)]⟩).scans.length :=
  scan_collection_get_inbounds ⟨false, [(1, 5), (2, 3)]⟩ 2 (by decide) (by decide)

/-! ### unique_merge (overlap.cpp lines 45-113) and get_unique_neighbors
(overlap.cpp lines 137-150)

`unique_merge` merges two iterator ranges; each maximal run of equal
values is collapsed with `merge` (the inner `while (v == *it)` loops) and
the collapsed value is emitted unless `skip` rejects it.  The exact loop
structure of the source is kept: the main loop with its three branches
(`*it2 < *it1`, `*it1 < *it2`, equal) and the two drain loops.  Output
iterators become the returned list; the returned count is its length.
`merge_edge` asserts its arguments equal and returns the first;
`skip_self` drops the vertex's own id. -/

/-- Embeds `merge_edge::operator()`: asserts `e1 == e2`, returns `e1`. -/
def merge_edge (e1 _e2 : Nat) : Nat := e1

/-- Embeds `skip_self::operator()`: true iff the candidate is the stored id. -/
def skip_self (id v : Nat) : Bool := v == id

/-- One collapse loop `while (it != last && v == *it) { v = merge(v, *it); ++it; }`:
returns the collapsed value and the remaining range. -/
def mergeRun (merge : Nat → Nat → Nat) (v : Nat) : List Nat → Nat × List Nat
  | [] => (v, [])
  | x :: xs => if v = x then mergeRun merge (merge v x) xs else (v, x :: xs)

/-- Embeds the emit step `if (!skip(v)) *(result++) = v;` of the source. -/
def uniqueEmit (skip : Nat → Bool) (v : Nat) : List Nat :=
  if skip v then [] else [v]

theorem mergeRun_snd_length (merge : Nat → Nat → Nat) (v : Nat) (l : List Nat) :
    (mergeRun merge v l).2.length ≤ l.length := by
  induction l generalizing v with
  | nil => simp [mergeRun]
  | cons x xs ih =>
      rw [mergeRun]
      split
      · exact le_trans (ih (merge v x)) (Nat.le_succ _)
      · exact le_refl _

/-- One of the two drain loops at the end of `unique_merge`, applied to
whichever range is nonempty when the main loop exits. -/
def uniqueTail (skip : Nat → Bool) (merge : Nat → Nat → Nat) : List Nat → List Nat
  | [] => []
  | x :: xs =>
      uniqueEmit skip (mergeRun merge x xs).1 ++
        uniqueTail skip merge (mergeRun merge x xs).2
termination_by l => l.length
decreasing_by
  simp only [List.length_cons]
  exact Nat.lt_succ_of_le (mergeRun_snd_length merge x xs)

/-- Embeds `unique_merge`: the main loop over both ranges followed by the two
drain loops. -/
def uniqueMerge (skip : Nat → Bool) (merge : Nat → Nat → Nat) :
    List Nat → List Nat → List Nat
  | [], l2 => uniqueTail skip merge l2
  | x :: xs, [] => uniqueTail skip merge (x :: xs)
  | x :: xs, y :: ys =>
      if y < x then
        uniqueEmit skip (mergeRun merge y ys).1 ++
          uniqueMerge skip merge (x :: xs) (mergeRun merge y ys).2
      else if x < y then
        uniqueEmit skip (mergeRun merge x xs).1 ++
          uniqueMerge skip merge (mergeRun merge x xs).2 (y :: ys)
      else
        uniqueEmit skip (mergeRun merge (mergeRun merge (merge x y) ys).1 xs).1 ++
          uniqueMerge skip merge
            (mergeRun merge (mergeRun merge (merge x y) ys).1 xs).2
            (mergeRun merge (merge x y) ys).2
termination_by l1 l2 => l1.length + l2.length
decreasing_by
  · simp only [List.length_cons]
    have := mergeRun_snd_length merge y ys
    omega
  · simp only [List.length_cons]
    have := mergeRun_snd_length merge x xs
    omega
  · simp only [List.length_cons]
    have h1 := mergeRun_snd_length merge (mergeRun merge (merge x y) ys).1 xs
    have h2 := mergeRun_snd_length merge (merge x y) ys
    omega

/-- Embeds `get_unique_neighbors`: merge the in- and out-neighbor lists,
skipping the vertex's own id. -/
def get_unique_neighbors (id : Nat) (inEdges outEdges : List Nat) : List Nat :=
  uniqueMerge (skip_self id) merge_edge inEdges outEdges

theorem mergeRun_merge_edge (v : Nat) (l : List Nat) :
    mergeRun merge_edge v l = (v, l.dropWhile (fun x => v == x)) := by
  induction l generalizing v with
  | nil => simp [mergeRun]
  | cons x xs ih =>
      rw [mergeRun, List.dropWhile_cons]
      by_cases h : v = x
      · rw [if_pos h]
        have hb : (v == x) = true := by simp [h]
        rw [hb]
        simp only [if_pos trivial, merge_edge]
        exact ih v
      · rw [if_neg h]
        have hb : (v == x) = false := by simp [h]
        rw [hb]
        simp

theorem mem_uniqueEmit (skip : Nat → Bool) (b v : Nat) :
    v ∈ uniqueEmit skip b ↔ (v = b ∧ skip b = false) := by
  unfold uniqueEmit
  split
  · next h => simp [h]
  · next h => simp [h, Bool.eq_false_iff.mpr h]

theorem uniqueTail_nil (skip : Nat → Bool) (merge : Nat → Nat → Nat) :
    uniqueTail skip merge [] = [] := by
  rw [uniqueTail]

theorem uniqueTail_cons (skip : Nat → Bool) (x : Nat) (xs : List Nat) :
    uniqueTail skip merge_edge (x :: xs) =
      uniqueEmit skip x ++
        uniqueTail skip merge_edge (xs.dropWhile (fun w => x == w)) := by
  rw [uniqueTail, mergeRun_merge_edge]

theorem uniqueMerge_nil_left (skip : Nat → Bool) (merge : Nat → Nat → Nat)
    (l2 : List Nat) : uniqueMerge skip merge [] l2 = uniqueTail skip merge l2 := by
  rw [uniqueMerge]

theorem uniqueMerge_cons_nil (skip : Nat → Bool) (merge : Nat → Nat → Nat)
    (x : Nat) (xs : List Nat) :
    uniqueMerge skip merge (x :: xs) [] = uniqueTail skip merge (x :: xs) := by
  rw [uniqueMerge]

theorem uniqueMerge_lt (skip : Nat → Bool) (x y : Nat) (xs ys : List Nat)
    (h : y < x) :
    uniqueMerge skip merge_edge (x :: xs) (y :: ys) =
      uniqueEmit skip y ++
        uniqueMerge skip merge_edge (x :: xs) (ys.dropWhile (fun w => y == w)) := by
  rw [uniqueMerge, mergeRun_merge_edge, if_pos h]

theorem uniqueMerge_gt (skip : Nat → Bool) (x y : Nat) (xs ys : List Nat)
    (h1 : ¬ y < x) (h2 : x < y) :
    uniqueMerge skip merge_edge (x :: xs) (y :: ys) =
      uniqueEmit skip x ++
        uniqueMerge skip merge_edge (xs.dropWhile (fun w => x == w)) (y :: ys) := by
  rw [uniqueMerge, mergeRun_merge_edge, if_neg h1, if_pos h2, mergeRun_merge_edge]

theorem uniqueMerge_eq_case (skip : Nat → Bool) (x y : Nat) (xs ys : List Nat)
    (h1 : ¬ y < x) (h2 : ¬ x < y) :
    uniqueMerge skip merge_edge (x :: xs) (y :: ys) =
      uniqueEmit skip x ++
        uniqueMerge skip merge_edge
          (xs.dropWhile (fun w => x == w)) (ys.dropWhile (fun w => x == w)) := by
  have hxy : x = y := by omega
  rw [uniqueMerge, if_neg h1, if_neg h2]
  subst hxy
  rw [mergeRun_merge_edge]
  simp only [merge_edge]
  rw [mergeRun_merge_edge]

theorem mem_of_mem_dropWhile_beq (b w : Nat) (l : List Nat)
    (hw : w ∈ l.dropWhile (fun x => b == x)) : w ∈ l :=
  (List.dropWhile_sublist _).subset hw

theorem mem_dropWhile_beq_or (b w : Nat) (l : List Nat) (hw : w ∈ l) :
    w = b ∨ w ∈ l.dropWhile (fun x => b == x) := by
  rw [← List.takeWhile_append_dropWhile (fun x => b == x) l] at hw
  rcases List.mem_append.1 hw with h | h
  · left
    have := List.mem_takeWhile_imp h
    simp at this
    omega
  · right
    exact h

theorem sorted_dropWhile_beq (b : Nat) (l : List Nat)
    (hl : l.Sorted (· ≤ ·)) : (l.dropWhile (fun x => b == x)).Sorted (· ≤ ·) :=
  hl.sublist (List.dropWhile_sublist _)

theorem dropWhile_beq_gt (b : Nat) (l : List Nat) (hl : l.Sorted (· ≤ ·))
    (hb : ∀ w ∈ l, b ≤ w) :
    ∀ w ∈ l.dropWhile (fun x => b == x), b < w := by
  induction l with
  | nil => simp
  | cons x xs ih =>
      rw [List.dropWhile_cons]
      obtain ⟨hx, hxs⟩ := List.sorted_cons.1 hl
      split
      · exact ih hxs (fun w hw => hb w (List.mem_cons_of_mem x hw))
      · next h =>
          intro w hw
          have hbx : b ≠ x := by simpa using h
          have hblex : b ≤ x := hb x (List.mem_cons_self x xs)
          rcases List.mem_cons.1 hw with rfl | hw
          · omega
          · have := hx w hw
            omega

theorem uniqueTail_spec (skip : Nat → Bool) :
    ∀ (n : Nat) (l : List Nat), l.length = n → l.Sorted (· ≤ ·) →
      (uniqueTail skip merge_edge l).Sorted (· < ·) ∧
      (∀ v, v ∈ uniqueTail skip merge_edge l ↔ (v ∈ l ∧ skip v = false)) := by
  intro n
  induction n using Nat.strong_induction_on with
  | _ n ih =>
      intro l hlen hsort
      cases l with
      | nil => simp [uniqueTail_nil]
      | cons x xs =>
          obtain ⟨hx, hxs⟩ := List.sorted_cons.1 hsort
          have hsub : (xs.dropWhile (fun w => x == w)).Sublist xs :=
            List.dropWhile_sublist _
          have hdlen : (xs.dropWhile (fun w => x == w)).length < n := by
            simp only [← hlen, List.length_cons]
            exact Nat.lt_succ_of_le hsub.length_le
          obtain ⟨hs, hm⟩ := ih _ hdlen (xs.dropWhile (fun w => x == w)) rfl
            (sorted_dropWhile_beq x xs hxs)
          have hgt : ∀ w ∈ xs.dropWhile (fun w => x == w), x < w :=
            dropWhile_beq_gt x xs hxs hx
          rw [uniqueTail_cons]
          constructor
          · unfold uniqueEmit
            split
            · simpa using hs
            · simp only [List.singleton_append]
              rw [List.sorted_cons]
              refine ⟨?_, hs⟩
              intro w hw
              rcases (hm w).1 hw with ⟨hwmem, _⟩
              exact hgt w hwmem
          · intro v
            rw [List.mem_append, mem_uniqueEmit, hm]
            constructor
            · rintro (⟨rfl, hskip⟩ | ⟨hmem, hskip⟩)
              · exact ⟨List.mem_cons_self _ _, hskip⟩
              · exact ⟨List.mem_cons_of_mem _ (mem_of_mem_dropWhile_beq x v xs hmem),
                  hskip⟩
            · rintro ⟨hmem, hskip⟩
              rcases List.mem_cons.1 hmem with rfl | hmem
              · exact Or.inl ⟨rfl, hskip⟩
              · rcases mem_dropWhile_beq_or x v xs hmem with rfl | hmem
                · exact Or.inl ⟨rfl, hskip⟩
                · exact Or.inr ⟨hmem, hskip⟩

theorem uniqueMerge_spec_aux (skip : Nat → Bool) :
    ∀ (n : Nat) (l1 l2 : List Nat), l1.length + l2.length = n →
      l1.Sorted (· ≤ ·) → l2.Sorted (· ≤ ·) →
      (uniqueMerge skip merge_edge l1 l2).Sorted (· < ·) ∧
      (∀ v, v ∈ uniqueMerge skip merge_edge l1 l2 ↔
        ((v ∈ l1 ∨ v ∈ l2) ∧ skip v = false)) := by
  intro n
  induction n using Nat.strong_induction_on with
  | _ n ih =>
    intro l1 l2 hlen h1 h2
    cases l1 with
    | nil =>
        rw [uniqueMerge_nil_left]
        obtain ⟨hs, hm⟩ := uniqueTail_spec skip l2.length l2 rfl h2
        exact ⟨hs, fun v => by rw [hm v]; simp⟩
    | cons x xs =>
      cases l2 with
      | nil =>
          rw [uniqueMerge_cons_nil]
          obtain ⟨hs, hm⟩ := uniqueTail_spec skip (x :: xs).length (x :: xs) rfl h1
          exact ⟨hs, fun v => by rw [hm v]; simp⟩
      | cons y ys =>
        obtain ⟨hx, hxs⟩ := List.sorted_cons.1 h1
        obtain ⟨hy, hys⟩ := List.sorted_cons.1 h2
        by_cases hyx : y < x
        · rw [uniqueMerge_lt skip x y xs ys hyx]
          have hsub : (ys.dropWhile (fun w => y == w)).Sublist ys :=
            List.dropWhile_sublist _
          obtain ⟨hs, hm⟩ := ih ((x :: xs).length + (ys.dropWhile (fun w => y == w)).length)
            (by simp only [← hlen, List.length_cons]
                have := hsub.length_le
                omega)
            (x :: xs) (ys.dropWhile (fun w => y == w)) rfl h1 (hys.sublist hsub)
          have hgt2 : ∀ w ∈ ys.dropWhile (fun w => y == w), y < w :=
            dropWhile_beq_gt y ys hys hy
          constructor
          · unfold uniqueEmit
            split
            · simpa using hs
            · simp only [List.singleton_append]
              rw [List.sorted_cons]
              refine ⟨?_, hs⟩
              intro w hw
              rcases (hm w).1 hw with ⟨hwm | hwm, _⟩
              · rcases List.mem_cons.1 hwm with rfl | hwm'
                · exact hyx
                · have := hx w hwm'
                  omega
              · exact hgt2 w hwm
          · intro v
            rw [List.mem_append, mem_uniqueEmit, hm]
            constructor
            · rintro (⟨rfl, hskip⟩ | ⟨hmem, hskip⟩)
              · exact ⟨Or.inr (List.mem_cons_self _ _), hskip⟩
              · rcases hmem with hmem | hmem
                · exact ⟨Or.inl hmem, hskip⟩
                · exact ⟨Or.inr (List.mem_cons_of_mem _ (hsub.subset hmem)), hskip⟩
            · rintro ⟨hmem | hmem, hskip⟩
              · exact Or.inr ⟨Or.inl hmem, hskip⟩
              · rcases List.mem_cons.1 hmem with rfl | hmem
                · exact Or.inl ⟨rfl, hskip⟩
                · rcases mem_dropWhile_beq_or y v ys hmem with rfl | hmem
                  · exact Or.inl ⟨rfl, hskip⟩
                  · exact Or.inr ⟨Or.inr hmem, hskip⟩
        · by_cases hxy : x < y
          · rw [uniqueMerge_gt skip x y xs ys hyx hxy]
            have hsub : (xs.dropWhile (fun w => x == w)).Sublist xs :=
              List.dropWhile_sublist _
            obtain ⟨hs, hm⟩ := ih ((xs.dropWhile (fun w => x == w)).length + (y :: ys).length)
              (by simp only [← hlen, List.length_cons]
                  have := hsub.length_le
                  omega)
              (xs.dropWhile (fun w => x == w)) (y :: ys) rfl (hxs.sublist hsub) h2
            have hgt1 : ∀ w ∈ xs.dropWhile (fun w => x == w), x < w :=
              dropWhile_beq_gt x xs hxs hx
            constructor
            · unfold uniqueEmit
              split
              · simpa using hs
              · simp only [List.singleton_append]
                rw [List.sorted_cons]
                refine ⟨?_, hs⟩
                intro w hw
                rcases (hm w).1 hw with ⟨hwm | hwm, _⟩
                · exact hgt1 w hwm
                · rcases List.mem_cons.1 hwm with rfl | hwm'
                  · exact hxy
                  · have := hy w hwm'
                    omega
            · intro v
              rw [List.mem_append, mem_uniqueEmit, hm]
              constructor
              · rintro (⟨rfl, hskip⟩ | ⟨hmem, hskip⟩)
                · exact ⟨Or.inl (List.mem_cons_self _ _), hskip⟩
                · rcases hmem with hmem | hmem
                  · exact ⟨Or.inl (List.mem_cons_of_mem _ (hsub.subset hmem)), hskip⟩
                  · exact ⟨Or.inr hmem, hskip⟩
              · rintro ⟨hmem | hmem, hskip⟩
                · rcases List.mem_cons.1 hmem with rfl | hmem
                  · exact Or.inl ⟨rfl, hskip⟩
                  · rcases mem_dropWhile_beq_or x v xs hmem with rfl | hmem
                    · exact Or.inl ⟨rfl, hskip⟩
                    · exact Or.inr ⟨Or.inl hmem, hskip⟩
                · exact Or.inr ⟨Or.inr hmem, hskip⟩
          · have hxy2 : x = y := by omega
            rw [uniqueMerge_eq_case skip x y xs ys hyx hxy]
            have hsub1 : (xs.dropWhile (fun w => x == w)).Sublist xs :=
              List.dropWhile_sublist _
            have hsub2 : (ys.dropWhile (fun w => x == w)).Sublist ys :=
              List.dropWhile_sublist _
            obtain ⟨hs, hm⟩ := ih
              ((xs.dropWhile (fun w => x == w)).length +
                (ys.dropWhile (fun w => x == w)).length)
              (by simp only [← hlen, List.length_cons]
                  have := hsub1.length_le
                  have := hsub2.length_le
                  omega)
              (xs.dropWhile (fun w => x == w)) (ys.dropWhile (fun w => x == w)) rfl
              (hxs.sublist hsub1) (hys.sublist hsub2)
            have hgt1 : ∀ w ∈ xs.dropWhile (fun w => x == w), x < w :=
              dropWhile_beq_gt x xs hxs hx
            have hgt2 : ∀ w ∈ ys.dropWhile (fun w => x == w), x < w :=
              dropWhile_beq_gt x ys hys (fun w hw => by have := hy w hw; omega)
            constructor
            · unfold uniqueEmit
              split
              · simpa using hs
              · simp only [List.singleton_append]
                rw [List.sorted_cons]
                refine ⟨?_, hs⟩
                intro w hw
                rcases (hm w).1 hw with ⟨hwm | hwm, _⟩
                · exact hgt1 w hwm
                · exact hgt2 w hwm
            · intro v
              rw [List.mem_append, mem_uniqueEmit, hm]
              constructor
              · rintro (⟨rfl, hskip⟩ | ⟨hmem, hskip⟩)
                · exact ⟨Or.inl (List.mem_cons_self _ _), hskip⟩
                · rcases hmem with hmem | hmem
                  · exact ⟨Or.inl (List.mem_cons_of_mem _ (hsub1.subset hmem)), hskip⟩
                  · exact ⟨Or.inr (List.mem_cons_of_mem _ (hsub2.subset hmem)), hskip⟩
              · rintro ⟨hmem | hmem, hskip⟩
                · rcases List.mem_cons.1 hmem with rfl | hmem
                  · exact Or.inl ⟨rfl, hskip⟩
                  · rcases mem_dropWhile_beq_or x v xs hmem with rfl | hmem
                    · exact Or.inl ⟨rfl, hskip⟩
                    · exact Or.inr ⟨Or.inl hmem, hskip⟩
                · rcases List.mem_cons.1 hmem with rfl | hmem
                  · exact Or.inl ⟨hxy2.symm, by rw [hxy2]; exact hskip⟩
                  · rcases mem_dropWhile_beq_or x v ys hmem with rfl | hmem
                    · exact Or.inl ⟨rfl, hskip⟩
                    · exact Or.inr ⟨Or.inr hmem, hskip⟩

/-- C10: for ascending inputs, `unique_merge` (with the `merge_edge`
merger used at both call sites) writes a strictly ascending — hence
duplicate-free — sequence containing exactly the values of the union of
the two ranges for which the skip predicate is false; the returned count
is the number of elements written, which in this list model is the
length of the output.  Consequently `get_unique_neighbors` produces the
ascending set of a vertex's distinct in- and out-neighbors excluding the
vertex itself. -/
theorem unique_merge_correct :
    (∀ (skip : Nat → Bool) (l1 l2 : List Nat),
      l1.Sorted (· ≤ ·) → l2.Sorted (· ≤ ·) →
      (uniqueMerge skip merge_edge l1 l2).Sorted (· < ·) ∧
      (∀ v, v ∈ uniqueMerge skip merge_edge l1 l2 ↔
        ((v ∈ l1 ∨ v ∈ l2) ∧ skip v = false))) ∧
    (∀ (id : Nat) (inEdges outEdges : List Nat),
      inEdges.Sorted (· ≤ ·) → outEdges.Sorted (· ≤ ·) →
      (get_unique_neighbors id inEdges outEdges).Sorted (· < ·) ∧
      (∀ v, v ∈ get_unique_neighbors id inEdges outEdges ↔
        ((v ∈ inEdges ∨ v ∈ outEdges) ∧ v ≠ id))) := by
  constructor
  · intro skip l1 l2 h1 h2
    exact uniqueMerge_spec_aux skip (l1.length + l2.length) l1 l2 rfl h1 h2
  · intro id inE outE h1 h2
    obtain ⟨hs, hm⟩ :=
      uniqueMerge_spec_aux (skip_self id) (inE.length + outE.length) inE outE rfl h1 h2
    refine ⟨hs, fun v => ?_⟩
    rw [get_unique_neighbors, hm v]
    simp [skip_self]

/-- Witness for C10: vertex 2 with in-neighbors [1, 2, 4] and
out-neighbors [2, 3, 4]. -/
theorem unique_merge_correct_witness :
    (get_unique_neighbors 2 [1, 2, 4] [2, 3, 4]).Sorted (· < ·) ∧
    (∀ v, v ∈ get_unique_neighbors 2 [1, 2, 4] [2, 3, 4] ↔
      ((v ∈ ([1, 2, 4] : List Nat) ∨ v ∈ ([2, 3, 4] : List Nat)) ∧ v ≠ 2)) :=
  unique_merge_correct.2 2 [1, 2, 4] [2, 3, 4] (by decide) (by decide)

/-! ### topK_scan_vertex (topK_scan_graph.cpp lines 151-274)

The accessors `has_local_scan`, `has_est_local`, `get_est_local` and
`get_num_edges` are inherited state of `scan_vertex`/`local_value`
(declared in `scan_graph.h`); they are modelled as fields of the vertex
state.  `run` decides whether the vertex requests its own edge data,
comparing a cheap bound against the current `max_scan`; the estimate
computed by `get_est_local_scan` merges the in/out neighbor lists with
`unique_merge` (skipping the vertex itself) and sums capped neighbor
degrees. -/

structure topK_scan_vertex where
  hasLocal : Bool
  hasEst : Bool
  estLocal : Nat
  numEdges : Nat

/-- Embeds `topK_scan_vertex::run`: returns whether the vertex requests its own
edge data (`request_vertices(&id, 1)`), given the current global
maximum. -/
def topK_scan_vertex_run (v : topK_scan_vertex) (maxScan : Nat) : Bool :=
  if v.hasLocal then false
  else if v.hasEst then decide (v.estLocal > maxScan)
  else decide (v.numEdges * v.numEdges ≥ maxScan)

/-- Embeds `topK_scan_vertex::get_est_local_scan`: return the cached estimate if
present, otherwise sum the capped degrees of the distinct neighbors
(excluding the vertex itself) on top of the vertex's own edge count and
halve. -/
def get_est_local_scan (deg : Nat → Nat) (v : topK_scan_vertex) (id : Nat)
    (inEdges outEdges : List Nat) : Nat :=
  if v.hasEst then v.estLocal
  else
    (let allNeighbors := uniqueMerge (skip_self id) merge_edge inEdges outEdges
     allNeighbors.foldl
       (fun tot u => tot + min (deg u) (allNeighbors.length * 2)) v.numEdges) / 2

/-- Embeds `topK_scan_vertex::run_on_itself`: returns whether the vertex
proceeds to the full local-scan computation
(`scan_vertex::run_on_itself`). -/
def topK_scan_vertex_run_on_itself (deg : Nat → Nat) (v : topK_scan_vertex)
    (id : Nat) (inEdges outEdges : List Nat) (maxScan : Nat) : Bool :=
  if v.numEdges = 0 then false
  else if get_est_local_scan deg v id inEdges outEdges < maxScan then false
  else true

/-- Counterexample to C1 as stated: with no estimate present, the code
issues the request when `deg * deg >= max_scan` (non-strict), so a vertex
whose degree-squared bound merely equals the current global maximum —
here a degree-1 vertex against a maximum of 1 — still requests its own
edges even though the bound does not exceed the maximum. -/
theorem topK_scan_vertex_run_cex :
    topK_scan_vertex_run ⟨false, false, 0, 1⟩ 1 = true ∧ ¬ (1 * 1 > 1) := by
  constructor
  · rfl
  · decide

/-- C1 (amended): a vertex whose local scan is known issues no request;
with an estimate present the request is issued iff the estimate strictly
exceeds the current global maximum; with no estimate the request is
issued iff degree squared is at least (>=) the current global maximum;
and `run_on_itself` returns without computing whenever the refined
estimate is below the current global maximum. -/
theorem topK_scan_vertex_run_correct (v : topK_scan_vertex) (m : Nat) :
    (v.hasLocal = true → topK_scan_vertex_run v m = false) ∧
    (v.hasLocal = false → v.hasEst = true →
      (topK_scan_vertex_run v m = true ↔ m < v.estLocal)) ∧
    (v.hasLocal = false → v.hasEst = false →
      (topK_scan_vertex_run v m = true ↔ m ≤ v.numEdges * v.numEdges)) ∧
    (∀ (deg : Nat → Nat) (id : Nat) (inEdges outEdges : List Nat),
      get_est_local_scan deg v id inEdges outEdges < m →
      topK_scan_vertex_run_on_itself deg v id inEdges outEdges m = false) := by
  refine ⟨?_, ?_, ?_, ?_⟩
  · intro h
    simp [topK_scan_vertex_run, h]
  · intro h1 h2
    simp [topK_scan_vertex_run, h1, h2]
  · intro h1 h2
    simp [topK_scan_vertex_run, h1, h2]
  · intro deg id inEdges outEdges hlt
    unfold topK_scan_vertex_run_on_itself
    rw [if_pos hlt]
    split
    · rfl
    · rfl

/-- Witness for C1 (amended): a vertex with a cached estimate of 5 and
degree 3 against a global maximum of 7 issues no request and computes
nothing. -/
theorem topK_scan_vertex_run_correct_witness :
    (topK_scan_vertex_run ⟨false, true, 5, 3⟩ 7 = true ↔ 7 < 5) ∧
    topK_scan_vertex_run_on_itself (fun _ => 0) ⟨false, true, 5, 3⟩ 0 [] [] 7 = false :=
  ⟨(topK_scan_vertex_run_correct ⟨false, true, 5, 3⟩ 7).2.1 rfl rfl,
   (topK_scan_vertex_run_correct ⟨false, true, 5, 3⟩ 7).2.2.2
     (fun _ => 0) 0 [] [] (by decide)⟩

/-! ### The top-K refinement stage (topK_scan_graph.cpp lines 393-430)

The driver's do-while loop reads `prev = known_scans.get(topK-1)`, seeds
`max_scan = global_max(prev)`, runs the engine with
`remove_small_scan_filter(prev)` and repeats while the K-th largest known
scan changed.  The engine pass itself (graph_engine::start/wait4complete)
is external to this file's sources and is abstracted as a function
`pass maxSeed filterMin state`; the loop body always calls it with
`maxSeed = filterMin = prev`, exactly as the driver does. -/

/-- Embeds `remove_small_scan_filter::keep`: keep a vertex iff its degree
squared is at least the threshold. -/
def remove_small_scan_filter_keep (minScan numEdges : Nat) : Bool :=
  decide (numEdges * numEdges ≥ minScan)

/-- The do-while refinement loop of `main`, with explicit fuel; returns
`none` when the fuel is exhausted before the exit condition holds. -/
def topK_refine_loop {α : Type} (pass : Nat → Nat → α → α) (kth : α → Nat) :
    Nat → α → Option α
  | 0, _ => none
  | fuel + 1, ks =>
      if kth (pass (kth ks) (kth ks) ks) = kth ks
      then some (pass (kth ks) (kth ks) ks)
      else topK_refine_loop pass kth fuel (pass (kth ks) (kth ks) ks)

/-- One iteration of the loop body: the engine pass seeded with the
current K-th largest known scan as both the new global maximum and the
filter threshold. -/
def topK_refine_step {α : Type} (pass : Nat → Nat → α → α) (kth : α → Nat)
    (ks : α) : α :=
  pass (kth ks) (kth ks) ks

/-- C8: the refinement stage repeatedly runs the engine pass with the
global maximum re-seeded to, and the filter threshold set to, the
current K-th largest known scan, and it returns exactly after the first
pass whose post-pass K-th largest value equals its pre-pass value; the
filter keeps a vertex iff its degree squared is at least the
threshold. -/
theorem topK_refine_loop_correct {α : Type} (pass : Nat → Nat → α → α)
    (kth : α → Nat) (fuel : Nat) (ks r : α) :
    (topK_refine_loop pass kth fuel ks = some r ↔
      ∃ i, i < fuel ∧
        (∀ j, j < i → kth ((topK_refine_step pass kth)^[j + 1] ks) ≠
          kth ((topK_refine_step pass kth)^[j] ks)) ∧
        kth ((topK_refine_step pass kth)^[i + 1] ks) =
          kth ((topK_refine_step pass kth)^[i] ks) ∧
        r = (topK_refine_step pass kth)^[i + 1] ks) ∧
    (∀ minScan numEdges,
      remove_small_scan_filter_keep minScan numEdges = true ↔
        minScan ≤ numEdges * numEdges) := by
  refine ⟨?_, fun minScan numEdges => by simp [remove_small_scan_filter_keep]⟩
  have hiter : ∀ (m : Nat) (x : α),
      (topK_refine_step pass kth)^[m] (topK_refine_step pass kth x) =
        (topK_refine_step pass kth)^[m + 1] x :=
    fun m x => (Function.iterate_succ_apply (topK_refine_step pass kth) m x).symm
  induction fuel generalizing ks with
  | zero => simp [topK_refine_loop]
  | succ fuel ih =>
      rw [topK_refine_loop]
      have hF1 : (topK_refine_step pass kth)^[0 + 1] ks =
          pass (kth ks) (kth ks) ks := rfl
      have hF0 : (topK_refine_step pass kth)^[0] ks = ks := rfl
      by_cases hstop : kth (pass (kth ks) (kth ks) ks) = kth ks
      · rw [if_pos hstop]
        constructor
        · intro h
          refine ⟨0, Nat.succ_pos fuel, fun j hj => absurd hj (Nat.not_lt_zero j),
            ?_, ?_⟩
          · rw [hF1, hF0]
            exact hstop
          · rw [hF1]
            exact (Option.some.inj h).symm
        · rintro ⟨i, _, hne, hfix, hr⟩
          have hi0 : i = 0 := by
            by_contra h0
            refine hne 0 (Nat.pos_of_ne_zero h0) ?_
            rw [hF1, hF0]
            exact hstop
          subst hi0
          rw [hF1] at hr
          rw [hr]
      · rw [if_neg hstop]
        have hstep : pass (kth ks) (kth ks) ks = topK_refine_step pass kth ks := rfl
        refine (ih (pass (kth ks) (kth ks) ks)).trans ?_
        rw [hstep]
        constructor
        · rintro ⟨i, hi, hne, hfix, hr⟩
          simp only [hiter] at hne hfix hr
          refine ⟨i + 1, Nat.succ_lt_succ hi, ?_, hfix, hr⟩
          intro j hj
          cases j with
          | zero =>
              rw [hF1, hF0]
              exact hstop
          | succ j => exact hne j (Nat.lt_of_succ_lt_succ hj)
        · rintro ⟨i, hi, hne, hfix, hr⟩
          have hi0 : i ≠ 0 := by
            rintro rfl
            refine hstop ?_
            rw [hF1, hF0] at hfix
            exact hfix
          obtain ⟨j, rfl⟩ : ∃ j, i = j + 1 := ⟨i - 1, by omega⟩
          refine ⟨j, Nat.lt_of_succ_lt_succ hi, ?_, ?_, ?_⟩
          · intro j2 hj2
            simp only [hiter]
            exact hne (j2 + 1) (Nat.succ_lt_succ hj2)
          · simp only [hiter]
            exact hfix
          · simp only [hiter]
            exact hr

/-- Witness for C8 at a concrete instance: state is a number, the pass
halves it, the K-th largest is the state itself, fuel 5, start 4; the
loop stabilizes the first time halving no longer changes the value. -/
theorem topK_refine_loop_correct_witness :
    (topK_refine_loop (fun _ _ x => x / 2) (fun x => x) 5 4 = some 0 ↔
      ∃ i, i < 5 ∧
        (∀ j, j < i →
          ((topK_refine_step (fun _ _ x => x / 2) (fun x => x))^[j + 1] 4 : Nat) ≠
            (topK_refine_step (fun _ _ x => x / 2) (fun x => x))^[j] 4) ∧
        ((topK_refine_step (fun _ _ x => x / 2) (fun x => x))^[i + 1] 4 : Nat) =
          (topK_refine_step (fun _ _ x => x / 2) (fun x => x))^[i] 4 ∧
        (0 : Nat) = (topK_refine_step (fun _ _ x => x / 2) (fun x => x))^[i + 1] 4) ∧
    (∀ minScan numEdges,
      remove_small_scan_filter_keep minScan numEdges = true ↔
        minScan ≤ numEdges * numEdges) :=
  topK_refine_loop_correct (fun _ _ x => x / 2) (fun x => x) 5 4 0

/-! ### wcc_vertex (wcc.cpp lines 39-120)

Per-vertex state: `updated` flag, `empty` flag and the component label.
`run_on_message` adopts a strictly smaller label and sets `updated`;
`run` in the FIND_COMPONENTS stage requests the vertex's own edges
(which on delivery multicasts the current label to all neighbors) iff
`updated`, clearing the flag; in the REMOVE_EMPTY stage it requests the
edge count, answered by `run_on_num_edges`. -/

inductive wcc_stage_t where
  | FIND_COMPONENTS
  | REMOVE_EMPTY

structure wcc_vertex where
  updated : Bool
  empty : Bool
  component_id : Nat

/-- The constructor: the vertex's own id as label, `updated` set. -/
def wcc_vertex_start (id : Nat) : wcc_vertex := ⟨true, false, id⟩

/-- Embeds `wcc_vertex::run_on_message`. -/
def wcc_run_on_message (v : wcc_vertex) (msgId : Nat) : wcc_vertex :=
  if msgId < v.component_id
  then { v with updated := true, component_id := msgId }
  else v

/-- Embeds `wcc_vertex::run`: returns whether a request is issued
(`request_vertices` in FIND_COMPONENTS, `request_num_edges` in
REMOVE_EMPTY) together with the post-run vertex state. -/
def wcc_vertex_run (stage : wcc_stage_t) (v : wcc_vertex) : Bool × wcc_vertex :=
  match stage with
  | .FIND_COMPONENTS =>
      if v.updated then (true, { v with updated := false }) else (false, v)
  | .REMOVE_EMPTY => (true, v)

/-- Embeds `wcc_vertex::run_on_num_edges`. -/
def wcc_run_on_num_edges (v : wcc_vertex) (numEdges : Nat) : wcc_vertex :=
  { v with empty := numEdges == 0 }

theorem wcc_vertex_run_find (v : wcc_vertex) :
    wcc_vertex_run wcc_stage_t.FIND_COMPONENTS v =
      if v.updated then (true, { v with updated := false }) else (false, v) := rfl

theorem wcc_run_on_message_cid (v : wcc_vertex) (m : Nat) :
    (wcc_run_on_message v m).component_id = min v.component_id m := by
  unfold wcc_run_on_message
  split
  · next h => simp [Nat.min_eq_right (Nat.le_of_lt h)]
  · next h => simp [Nat.min_eq_left (by omega : v.component_id ≤ m)]

theorem wcc_run_on_message_upd (v : wcc_vertex) (m : Nat) :
    (wcc_run_on_message v m).updated = (decide (m < v.component_id) || v.updated) := by
  unfold wcc_run_on_message
  split
  · next h => simp [h]
  · next h => simp [h]

theorem wcc_foldl_cid_le (msgs : List Nat) :
    ∀ v : wcc_vertex, (msgs.foldl wcc_run_on_message v).component_id ≤ v.component_id := by
  induction msgs with
  | nil => intro v; exact le_refl _
  | cons m ms ih =>
      intro v
      simp only [List.foldl_cons]
      refine le_trans (ih _) ?_
      rw [wcc_run_on_message_cid]
      exact Nat.min_le_left _ _

theorem wcc_foldl_upd_stays (msgs : List Nat) :
    ∀ v : wcc_vertex, v.updated = true →
      (msgs.foldl wcc_run_on_message v).updated = true := by
  induction msgs with
  | nil => intro v h; exact h
  | cons m ms ih =>
      intro v h
      simp only [List.foldl_cons]
      refine ih _ ?_
      rw [wcc_run_on_message_upd, h]
      simp

theorem wcc_foldl_upd_iff (msgs : List Nat) :
    ∀ v : wcc_vertex, v.updated = false →
      ((msgs.foldl wcc_run_on_message v).updated = true ↔
        (msgs.foldl wcc_run_on_message v).component_id < v.component_id) := by
  induction msgs with
  | nil =>
      intro v h
      simp [h]
  | cons m ms ih =>
      intro v h
      simp only [List.foldl_cons]
      by_cases hm : m < v.component_id
      · have hupd : (wcc_run_on_message v m).updated = true := by
          rw [wcc_run_on_message_upd]
          simp [hm]
        have hcid : (wcc_run_on_message v m).component_id = m := by
          rw [wcc_run_on_message_cid]
          omega
        constructor
        · intro _
          refine lt_of_le_of_lt (le_trans (wcc_foldl_cid_le ms _) ?_) hm
          rw [hcid]
        · intro _
          exact wcc_foldl_upd_stays ms _ hupd
      · have hv : wcc_run_on_message v m = v := by
          unfold wcc_run_on_message
          rw [if_neg hm]
        rw [hv]
        exact ih v h

/-- C4: `run_on_message` adopts a message's label iff it is strictly
smaller (the new label is the minimum of the old label and the
message's), setting the `updated` flag exactly on adoption; the label is
monotonically non-increasing over any sequence of deliveries; and a
subsequent FIND_COMPONENTS `run` issues a request iff the label changed
since the last run (the flag, cleared by the last run, was re-set by
some adopted message). -/
theorem wcc_run_on_message_correct (v : wcc_vertex) (m : Nat) (msgs : List Nat) :
    (wcc_run_on_message v m).component_id = min v.component_id m ∧
    (wcc_run_on_message v m).updated = (decide (m < v.component_id) || v.updated) ∧
    (msgs.foldl wcc_run_on_message v).component_id ≤ v.component_id ∧
    (wcc_vertex_run wcc_stage_t.FIND_COMPONENTS v).1 = v.updated ∧
    (wcc_vertex_run wcc_stage_t.FIND_COMPONENTS v).2.updated = false ∧
    (v.updated = false →
      ((wcc_vertex_run wcc_stage_t.FIND_COMPONENTS
          (msgs.foldl wcc_run_on_message v)).1 = true ↔
        (msgs.foldl wcc_run_on_message v).component_id < v.component_id)) := by
  refine ⟨wcc_run_on_message_cid v m, wcc_run_on_message_upd v m,
    wcc_foldl_cid_le msgs v, ?_, ?_, ?_⟩
  · rw [wcc_vertex_run_find]
    split
    · next h => simp [h]
    · next h => simp [Bool.eq_false_iff.mpr h]
  · rw [wcc_vertex_run_find]
    split
    · rfl
    · next h => simp [Bool.eq_false_iff.mpr h]
  · intro h
    have hrun : ∀ w : wcc_vertex,
        (wcc_vertex_run wcc_stage_t.FIND_COMPONENTS w).1 = w.updated := by
      intro w
      rw [wcc_vertex_run_find]
      split
      · next h2 => simp [h2]
      · next h2 => simp [Bool.eq_false_iff.mpr h2]
    rw [hrun]
    exact wcc_foldl_upd_iff msgs v h

/-- Witness for C4: a vertex with label 5, flag clear, receiving
messages 4 then 2. -/
theorem wcc_run_on_message_correct_witness :
    (wcc_vertex_run wcc_stage_t.FIND_COMPONENTS
        ([4, 2].foldl wcc_run_on_message ⟨false, false, 5⟩)).1 = true ↔
      ([4, 2].foldl wcc_run_on_message ⟨false, false, 5⟩).component_id < 5 :=
  (wcc_run_on_message_correct ⟨false, false, 5⟩ 3 [4, 2]).2.2.2.2.2 rfl

/-! ### WCC synchronous superstep model (wcc.cpp FIND_COMPONENTS stage)

One superstep of the engine on the WCC algorithm: every vertex whose
`updated` flag is set runs, clears its flag and (via its page-vertex
callback) multicasts its current label to all its neighbors; messages
are delivered before the next superstep, each receiver folding
`run_on_message` over them, so a vertex's new label is the minimum of
its old label and the labels of all updated in-neighbors, and its flag
is set afterwards exactly if its label strictly decreased. -/

structure wcc_state (n : Nat) where
  cid : Fin n → Nat
  upd : Fin n → Bool

/-- The labels multicast to vertex `u` during one superstep: one message
per updated vertex adjacent to `u`. -/
def wcc_msgs {n : Nat} (G : Fin n → List (Fin n)) (s : wcc_state n)
    (u : Fin n) : List Nat :=
  (List.finRange n).filterMap
    (fun v => if s.upd v = true ∧ u ∈ G v then some (s.cid v) else none)

/-- Vertex `u`'s label after the deliveries of one superstep. -/
def wcc_new_cid {n : Nat} (G : Fin n → List (Fin n)) (s : wcc_state n)
    (u : Fin n) : Nat :=
  (wcc_msgs G s u).foldl min (s.cid u)

/-- One full superstep: run all updated vertices, deliver all messages. -/
def wcc_superstep {n : Nat} (G : Fin n → List (Fin n)) (s : wcc_state n) :
    wcc_state n :=
  ⟨fun u => wcc_new_cid G s u, fun u => decide (wcc_new_cid G s u < s.cid u)⟩

/-- Quiescence: no vertex is active for the next superstep. -/
def wcc_quiescent {n : Nat} (s : wcc_state n) : Prop := ∀ u, s.upd u = false

instance {n : Nat} (s : wcc_state n) : Decidable (wcc_quiescent s) :=
  inferInstanceAs (Decidable (∀ u, s.upd u = false))

/-- The state created by `graph->start_all()`: each vertex carries its
own id as label with the `updated` flag set. -/
def wcc_start_all (n : Nat) : wcc_state n :=
  ⟨fun u => u.val, fun _ => true⟩

def wcc_sum {n : Nat} (s : wcc_state n) : Nat := ∑ u, s.cid u

/-- Termination measure: twice the label sum plus one while active. -/
def wcc_measure {n : Nat} (s : wcc_state n) : Nat :=
  2 * wcc_sum s + (if wcc_quiescent s then 0 else 1)

theorem foldl_min_le_init (l : List Nat) : ∀ init : Nat, l.foldl min init ≤ init := by
  induction l with
  | nil => intro init; exact le_refl _
  | cons x xs ih =>
      intro init
      exact le_trans (ih (min init x)) (Nat.min_le_left _ _)

theorem wcc_new_cid_le {n : Nat} (G : Fin n → List (Fin n)) (s : wcc_state n)
    (u : Fin n) : wcc_new_cid G s u ≤ s.cid u :=
  foldl_min_le_init _ _

theorem wcc_msgs_quiescent {n : Nat} (G : Fin n → List (Fin n)) (s : wcc_state n)
    (h : wcc_quiescent s) (u : Fin n) : wcc_msgs G s u = [] := by
  unfold wcc_msgs
  rw [List.filterMap_eq_nil_iff]
  intro v _
  rw [if_neg]
  rintro ⟨h1, _⟩
  rw [h v] at h1
  exact Bool.false_ne_true h1

theorem wcc_quiescent_absorbing {n : Nat} (G : Fin n → List (Fin n))
    (s : wcc_state n) (h : wcc_quiescent s) : wcc_quiescent (wcc_superstep G s) := by
  intro u
  have hmsg := wcc_msgs_quiescent G s h u
  simp only [wcc_superstep]
  have : wcc_new_cid G s u = s.cid u := by
    unfold wcc_new_cid
    rw [hmsg]
    rfl
  simp [this]

theorem wcc_measure_decreases {n : Nat} (G : Fin n → List (Fin n))
    (s : wcc_state n) (hnq : ¬ wcc_quiescent s) :
    wcc_measure (wcc_superstep G s) < wcc_measure s := by
  have hle : ∀ u, wcc_new_cid G s u ≤ s.cid u := wcc_new_cid_le G s
  by_cases hfix : ∀ u, wcc_new_cid G s u = s.cid u
  · have hq : wcc_quiescent (wcc_superstep G s) := by
      intro u
      simp [wcc_superstep, hfix u]
    have hsum : wcc_sum (wcc_superstep G s) = wcc_sum s := by
      unfold wcc_sum wcc_superstep
      exact Finset.sum_congr rfl (fun u _ => hfix u)
    unfold wcc_measure
    rw [hsum, if_pos hq, if_neg hnq]
    omega
  · push_neg at hfix
    obtain ⟨u0, hu0⟩ := hfix
    have hlt : wcc_sum (wcc_superstep G s) < wcc_sum s := by
      unfold wcc_sum wcc_superstep
      exact Finset.sum_lt_sum (fun u _ => hle u)
        ⟨u0, Finset.mem_univ u0, lt_of_le_of_ne (hle u0) hu0⟩
    have h1 : wcc_measure (wcc_superstep G s) ≤ 2 * wcc_sum (wcc_superstep G s) + 1 := by
      unfold wcc_measure
      split
      · omega
      · omega
    have h2 : wcc_measure s = 2 * wcc_sum s + 1 := by
      unfold wcc_measure
      rw [if_neg hnq]
    omega

theorem wcc_terminates_aux {n : Nat} (G : Fin n → List (Fin n)) :
    ∀ (k : Nat) (s : wcc_state n), wcc_measure s ≤ k →
      ∃ m, m ≤ wcc_measure s ∧ wcc_quiescent ((wcc_superstep G)^[m] s) := by
  intro k
  induction k with
  | zero =>
      intro s hs
      refine ⟨0, Nat.zero_le _, ?_⟩
      rw [Function.iterate_zero_apply]
      by_contra hnq
      have : wcc_measure s = 2 * wcc_sum s + 1 := by
        unfold wcc_measure
        rw [if_neg hnq]
      omega
  | succ k ih =>
      intro s hs
      by_cases hq : wcc_quiescent s
      · exact ⟨0, Nat.zero_le _, hq⟩
      · have hdec := wcc_measure_decreases G s hq
        obtain ⟨m, hm, hqm⟩ := ih (wcc_superstep G s) (by omega)
        refine ⟨m + 1, by omega, ?_⟩
        rw [Function.iterate_succ_apply]
        exact hqm

/-- C5: on every finite graph the WCC label-propagation process reaches
quiescence within `wcc_measure` supersteps — labels only decrease
(each adoption strictly), they are bounded below by zero, and a
superstep in which no label changes deactivates every vertex; moreover
quiescence is absorbing. -/
theorem wcc_label_propagation_terminates {n : Nat} (G : Fin n → List (Fin n))
    (s : wcc_state n) :
    (∃ k, k ≤ wcc_measure s ∧ wcc_quiescent ((wcc_superstep G)^[k] s)) ∧
    (∀ u, wcc_new_cid G s u ≤ s.cid u) ∧
    (wcc_quiescent s → wcc_quiescent (wcc_superstep G s)) :=
  ⟨wcc_terminates_aux G (wcc_measure s) s (le_refl _), wcc_new_cid_le G s,
    wcc_quiescent_absorbing G s⟩

/-- Witness for C5 on a concrete 2-vertex graph with one edge. -/
theorem wcc_label_propagation_terminates_witness :
    ∃ k, k ≤ wcc_measure (wcc_start_all 2) ∧
      wcc_quiescent ((wcc_superstep (fun u => [1 - u]))^[k] (wcc_start_all 2)) :=
  (wcc_label_propagation_terminates (fun u => [1 - u]) (wcc_start_all 2)).1

/-! ### compute_wcc output (wcc.cpp lines 122-182)

`compute_wcc` runs FIND_COMPONENTS to quiescence, then the REMOVE_EMPTY
pass in which every vertex learns its edge count
(`run_on_num_edges`: `empty = (num_edges == 0)`), and finally
`save_cid_query` stores the component id of each non-empty vertex and
`INVALID_VERTEX_ID` for empty ones. -/

/-- Embeds `INVALID_VERTEX_ID`: the "none" sentinel, `UINT_MAX` for the 32-bit
`vertex_id_t`. -/
def INVALID_VERTEX_ID : Nat := 4294967295

/-- Embeds `save_cid_query::run` after the REMOVE_EMPTY pass: a vertex with
zero edges stores the sentinel, any other stores its component id. -/
def save_cid {n : Nat} (G : Fin n → List (Fin n)) (s : wcc_state n)
    (u : Fin n) : Nat :=
  if (G u).length = 0 then INVALID_VERTEX_ID else s.cid u

/-- The two disjoint triangles {0,1,2} and {3,4,5} plus the isolated
vertex 6. -/
def clique_graph : Fin 7 → List (Fin 7) :=
  fun u => [[1, 2], [0, 2], [0, 1], [4, 5], [3, 5], [3, 4], []].getD u.val []

/-- C6: on two disjoint cliques {0,1,2} and {3,4,5} plus isolated vertex
6, the propagation is quiescent after two supersteps and the saved
output is {0:0, 1:0, 2:0, 3:3, 4:3, 5:3, 6:INVALID_VERTEX_ID}; in
general every vertex with zero edges is stored as the sentinel by the
REMOVE_EMPTY pass rather than keeping its own id. -/
theorem compute_wcc_cliques :
    (wcc_quiescent (wcc_superstep clique_graph
        (wcc_superstep clique_graph (wcc_start_all 7))) ∧
      (List.finRange 7).map
          (save_cid clique_graph
            (wcc_superstep clique_graph
              (wcc_superstep clique_graph (wcc_start_all 7)))) =
        [0, 0, 0, 3, 3, 3, INVALID_VERTEX_ID]) ∧
    (∀ (n : Nat) (G : Fin n → List (Fin n)) (s : wcc_state n) (u : Fin n),
      (G u).length = 0 → save_cid G s u = INVALID_VERTEX_ID) := by
  refine ⟨⟨by decide, by decide⟩, ?_⟩
  intro n G s u h
  simp [save_cid, h]

/-- Witness for C6's zero-edge conjunct: the isolated vertex 6. -/
theorem compute_wcc_cliques_witness :
    save_cid clique_graph (wcc_start_all 7) ⟨6, by decide⟩ = INVALID_VERTEX_ID :=
  compute_wcc_cliques.2 7 clique_graph (wcc_start_all 7) ⟨6, by decide⟩ (by decide)
